import Mathlib

/-!
# Verification of the PyTrx core (CamEnv.py / Velocity.py)

Shallow embedding of the camera-environment and velocity-pipeline code of
the PyTrx repository, together with theorems settling the frozen claims
about it.  Numeric values are modelled over `ℝ` (camera / projection code,
which uses trigonometry and square roots) and over `ℚ` (the calibration
bookkeeping, which is plain arithmetic).  Python's `NaN` pixel marker is
modelled by `Option ℝ` (`none` = NaN, and every ordered comparison with
`none` is false, as with NaN).  Python exceptions are modelled by
`Except PyError`.
-/

namespace PyTrx

/-- Exceptions that the embedded code can raise.  `valueError` stands for a
numpy broadcast error, `typeError` for unpacking a non-sequence, and
`attributeError` for reading a nonexistent object attribute. -/
inductive PyError where
  | valueError
  | typeError
  | attributeError
  deriving DecidableEq, Repr

/-! ## CamCalib (CamEnv.py, class CamCalib)

`checkMatrix` pads the tangential coefficients to length 2 and the radial
coefficients to length 6 (`np.zeros(k); v[:l.size] = l`).  The padded
vectors are modelled as total functions `Fin 2 → ℚ` / `Fin 6 → ℚ`. -/

/-- One entry of `np.zeros(n)` after `v[:l.size] = l`: entry `i` is `l[i]`
when `i < l.size` and `0` otherwise. -/
def padEntry (l : List ℚ) (i : ℕ) : ℚ := l.getD i 0

/-- Calibration state of a `CamCalib` object: the padded tangential
(`_tanCorr`, length 2) and radial (`_radCorr`, length 6) distortion
coefficient vectors. -/
structure CamCalib where
  tanCorr : Fin 2 → ℚ
  radCorr : Fin 6 → ℚ

/-- `CamCalib.checkMatrix` (CamEnv.py lines 306-326): pads the tangential
coefficients into `np.zeros(2)` and the radial coefficients into
`np.zeros(6)`.  The numpy assignment `v[:l.size] = l` raises a
`ValueError` when the input is longer than the target vector. -/
def checkMatrix (tanDis radDis : List ℚ) : Except PyError CamCalib :=
  if tanDis.length ≤ 2 ∧ radDis.length ≤ 6 then
    .ok ⟨fun i => padEntry tanDis i, fun i => padEntry radDis i⟩
  else
    .error .valueError

/-- `CamCalib.getDistortCoeffsCv2` (CamEnv.py lines 249-260).  When both
`_radCorr[2]` and `_radCorr[3]` are zero the final branch reads
`self._radCorrc`, an attribute that does not exist on the object, so the
call raises an `AttributeError` instead of returning
`np.append(self._radCorr[0:2], self._tanCorr)`. -/
def getDistortCoeffsCv2 (c : CamCalib) : Except PyError (List ℚ) :=
  if c.radCorr 3 ≠ 0 then
    .ok ([c.radCorr 0, c.radCorr 1] ++ [c.tanCorr 0, c.tanCorr 1] ++
         [c.radCorr 2, c.radCorr 3, c.radCorr 4, c.radCorr 5])
  else if c.radCorr 2 ≠ 0 then
    .ok ([c.radCorr 0, c.radCorr 1] ++ [c.tanCorr 0, c.tanCorr 1] ++
         [c.radCorr 2])
  else
    .error .attributeError

/-- C10: for every `CamCalib` whose padded radial vector has third and
fourth entries (`_radCorr[2]`, `_radCorr[3]`) both zero,
`getDistortCoeffsCv2` raises an `AttributeError` (reading the nonexistent
field `_radCorrc`) instead of returning `[k1, k2, p1, p2]`; when the third
or fourth radial entry is non-zero it returns a well-formed coefficient
array. -/
theorem getDistortCoeffsCv2_attributeError (c : CamCalib) :
    (c.radCorr 2 = 0 → c.radCorr 3 = 0 →
      getDistortCoeffsCv2 c = .error .attributeError) ∧
    (c.radCorr 3 ≠ 0 →
      getDistortCoeffsCv2 c =
        .ok [c.radCorr 0, c.radCorr 1, c.tanCorr 0, c.tanCorr 1,
             c.radCorr 2, c.radCorr 3, c.radCorr 4, c.radCorr 5]) ∧
    (c.radCorr 3 = 0 → c.radCorr 2 ≠ 0 →
      getDistortCoeffsCv2 c =
        .ok [c.radCorr 0, c.radCorr 1, c.tanCorr 0, c.tanCorr 1,
             c.radCorr 2]) := by
  refine ⟨fun h2 h3 => ?_, fun h3 => ?_, fun h3 h2 => ?_⟩
  · simp [getDistortCoeffsCv2, h2, h3]
  · simp [getDistortCoeffsCv2, h3]
  · simp [getDistortCoeffsCv2, h2, h3]

/-- Witness for C10 at a concrete calibration with only two radial
coefficients supplied (padded third and fourth entries zero): the getter
raises `AttributeError`; and at one with a non-zero fourth entry it
returns the eight coefficients. -/
theorem getDistortCoeffsCv2_attributeError_witness :
    getDistortCoeffsCv2 ⟨![5, 6], ![1, 2, 0, 0, 0, 0]⟩ =
      .error .attributeError ∧
    getDistortCoeffsCv2 ⟨![5, 6], ![1, 2, 3, 4, 0, 0]⟩ =
      .ok [1, 2, 5, 6, 3, 4, 0, 0] := by
  constructor
  · exact (getDistortCoeffsCv2_attributeError ⟨![5, 6], ![1, 2, 0, 0, 0, 0]⟩).1
      (by decide) (by decide)
  · have h := (getDistortCoeffsCv2_attributeError
      ⟨![5, 6], ![1, 2, 3, 4, 0, 0]⟩).2.1 (by decide)
    simpa using h

/-! ## CamEnv camera state (CamEnv.py, class CamEnv)

The fields a `CamEnv` object carries that the projection code reads:
`_camloc` (camera location), `_camDirection` (the yaw/pitch/roll array,
index 0 = yaw, 1 = pitch, 2 = roll), `_focLen` = `[fx, fy]`,
`_camCen` = `[cx, cy]`, the padded distortion vectors, and the reference
image size `getImageSize()` = `(height, width)` (numpy shape order, as
used at Velocity-style call sites `h = getImageSize()[0]`,
`w = getImageSize()[1]`). -/

/-- Camera environment state read by `CamEnv.getR` and `CamEnv.project`. -/
structure Camera where
  camloc : Fin 3 → ℝ
  camDirection : Fin 3 → ℝ
  focLen : ℝ × ℝ
  camCen : ℝ × ℝ
  radCorr : Fin 6 → ℝ
  tanCorr : Fin 2 → ℝ
  imsize : ℝ × ℝ

/-- `CamEnv.getR` (CamEnv.py lines 858-872): with
`C = np.cos(self._camDirection)` and `S = np.sin(self._camDirection)`,
builds the rows `p`, `q`, `r` and then negates the first two rows
(`value[0:2,:] = -value[0:2,:]`); the negation is applied inline here. -/
noncomputable def getR (cam : Camera) : Matrix (Fin 3) (Fin 3) ℝ :=
  let C : Fin 3 → ℝ := fun i => Real.cos (cam.camDirection i)
  let S : Fin 3 → ℝ := fun i => Real.sin (cam.camDirection i)
  Matrix.of
    ![![-(S 2 * S 1 * C 0 - C 2 * S 0), -(S 2 * S 1 * S 0 + C 2 * C 0),
        -(S 2 * C 1)],
      ![-(C 2 * S 1 * C 0 + S 2 * S 0), -(C 2 * S 1 * S 0 - S 2 * C 0),
        -(C 2 * C 1)],
      ![C 1 * C 0, C 1 * S 0, -S 1]]

/-- C7: for all yaw, pitch and roll values, `CamEnv.getR` returns a 3×3
orthonormal matrix: `R * Rᵀ = 1` and `det R = 1`.  It reads only the
`_camDirection` angles, so it is a pure function of (yaw, pitch, roll). -/
theorem getR_orthonormal (cam : Camera) :
    getR cam * (getR cam).transpose = 1 ∧ (getR cam).det = 1 := by
  have h0 : Real.cos (cam.camDirection 0) ^ 2 +
      Real.sin (cam.camDirection 0) ^ 2 = 1 :=
    Real.cos_sq_add_sin_sq _
  have h1 : Real.cos (cam.camDirection 1) ^ 2 +
      Real.sin (cam.camDirection 1) ^ 2 = 1 :=
    Real.cos_sq_add_sin_sq _
  have h2 : Real.cos (cam.camDirection 2) ^ 2 +
      Real.sin (cam.camDirection 2) ^ 2 = 1 :=
    Real.cos_sq_add_sin_sq _
  set c0 := Real.cos (cam.camDirection 0)
  set s0 := Real.sin (cam.camDirection 0)
  set c1 := Real.cos (cam.camDirection 1)
  set s1 := Real.sin (cam.camDirection 1)
  set c2 := Real.cos (cam.camDirection 2)
  set s2 := Real.sin (cam.camDirection 2)
  constructor
  · ext i j
    fin_cases i <;> fin_cases j <;>
      simp [getR, Matrix.mul_apply, Matrix.transpose_apply,
        Matrix.vecHead, Matrix.vecTail, Fin.sum_univ_three, Matrix.one_apply]
    · linear_combination (s2 ^ 2 * s1 ^ 2 + c2 ^ 2) * h0 + s2 ^ 2 * h1 + h2
    · linear_combination (s2 * c2 * s1 ^ 2 - c2 * s2) * h0 + s2 * c2 * h1
    · linear_combination (-(s2 * s1 * c1)) * h0
    · linear_combination (s2 * c2 * s1 ^ 2 - c2 * s2) * h0 + s2 * c2 * h1
    · linear_combination (c2 ^ 2 * s1 ^ 2 + s2 ^ 2) * h0 + c2 ^ 2 * h1 + h2
    · linear_combination (-(c2 * s1 * c1)) * h0
    · linear_combination (-(s2 * s1 * c1)) * h0
    · linear_combination (-(c2 * s1 * c1)) * h0
    · linear_combination c1 ^ 2 * h0 + h1
  · rw [Matrix.det_fin_three]
    simp [getR, Matrix.vecHead, Matrix.vecTail]
    linear_combination ((c1 ^ 2 + s1 ^ 2) * (c2 ^ 2 + s2 ^ 2)) * h0 +
      (c2 ^ 2 + s2 ^ 2) * h1 + h2

/-! ## CamEnv.project (CamEnv.py lines 732-818)

Pixel coordinates are `Option ℝ` with `none` standing for the `np.nan`
written into `uv` for points of non-positive depth; as with NaN, every
ordered comparison against `none` is false. -/

/-- `none ≥ c` is false (NaN semantics); `some x ≥ c` is `c ≤ x`. -/
def optGe : Option ℝ → ℝ → Prop
  | none, _ => False
  | some x, c => c ≤ x

/-- `none ≤ c` is false (NaN semantics); `some x ≤ c` is `x ≤ c`. -/
def optLe : Option ℝ → ℝ → Prop
  | none, _ => False
  | some x, c => x ≤ c

@[simp] theorem optGe_none (c : ℝ) : optGe none c ↔ False := Iff.rfl

@[simp] theorem optGe_some (x c : ℝ) : optGe (some x) c ↔ c ≤ x := Iff.rfl

@[simp] theorem optLe_none (c : ℝ) : optLe none c ↔ False := Iff.rfl

@[simp] theorem optLe_some (x c : ℝ) : optLe (some x) c ↔ x ≤ c := Iff.rfl

/-- Result of `CamEnv.project` for one world point: the pixel coordinate
pair `uv`, the view `depth`, and the `inframe` flag. -/
structure PixResult where
  uv : Option ℝ × Option ℝ
  depth : ℝ
  inframe : Prop

/-- `CamEnv.project` (CamEnv.py lines 732-818) for a single world point:
`xyz = xyz - self._camloc`; `Rprime = np.transpose(self.getR())`;
`xyz = np.dot(xyz, Rprime)`; `xy = xyz[:,0:2] / xyz[:,2:3]`;
`uv = focLen * xy + camCen`; points with `xyz[:,2] <= 0` get NaN pixel
coordinates; `depth = xyz[:,2]`; `inframe` as on lines 814-816 with
`ims = getImageSize()` in `(height, width)` order.  The radial/tangential
distortion block on lines 770-791 is guarded by a literal `if False:` and
never executes, so it is omitted here. -/
noncomputable def projectPoint (cam : Camera) (p : Fin 3 → ℝ) : PixResult :=
  let xyz0 : Fin 3 → ℝ := fun i => p i - cam.camloc i
  let Rprime := (getR cam).transpose
  let xyz := Matrix.vecMul xyz0 Rprime
  let xy : ℝ × ℝ := (xyz 0 / xyz 2, xyz 1 / xyz 2)
  let u := cam.focLen.1 * xy.1 + cam.camCen.1
  let v := cam.focLen.2 * xy.2 + cam.camCen.2
  let uv : Option ℝ × Option ℝ :=
    if xyz 2 ≤ 0 then (none, none) else (some u, some v)
  { uv := uv
    depth := xyz 2
    inframe := 0 < xyz 2 ∧ optGe uv.1 1 ∧ optGe uv.2 1 ∧
      optLe uv.1 cam.imsize.2 ∧ optLe uv.2 cam.imsize.1 }

/-- C1: `CamEnv.project` translates the world point by the camera
location, rotates by the transpose of the pose rotation matrix (so the
camera-frame vector is `getR cam *ᵥ (p - camloc)`), perspective-divides by
the rotated Z, and applies `u = fx·x/z + cx`, `v = fy·y/z + cy`; no lens
distortion is applied, so the result is independent of the stored radial
and tangential distortion coefficients. -/
theorem project_formula_no_distortion (cam : Camera) (p : Fin 3 → ℝ) :
    (projectPoint cam p).depth =
        Matrix.mulVec (getR cam) (fun i => p i - cam.camloc i) 2 ∧
    (0 < Matrix.mulVec (getR cam) (fun i => p i - cam.camloc i) 2 →
      (projectPoint cam p).uv =
        (some (cam.focLen.1 *
            (Matrix.mulVec (getR cam) (fun i => p i - cam.camloc i) 0 /
             Matrix.mulVec (getR cam) (fun i => p i - cam.camloc i) 2) +
          cam.camCen.1),
         some (cam.focLen.2 *
            (Matrix.mulVec (getR cam) (fun i => p i - cam.camloc i) 1 /
             Matrix.mulVec (getR cam) (fun i => p i - cam.camloc i) 2) +
          cam.camCen.2))) ∧
    (∀ rad tanc,
      projectPoint { cam with radCorr := rad, tanCorr := tanc } p =
        projectPoint cam p) := by
  refine ⟨?_, fun h => ?_, fun rad tanc => rfl⟩
  · simp [projectPoint, Matrix.vecMul_transpose]
  · simp [projectPoint, Matrix.vecMul_transpose, not_le.2 h]

/-- Witness for C1 at a camera at the origin with all angles zero and a
world point at depth 2 on the viewing axis: the hypothesis `0 < depth` is
discharged concretely and the pixel equals the principal point. -/
theorem project_formula_no_distortion_witness :
    (projectPoint
        ⟨![0, 0, 0], ![0, 0, 0], (1, 1), (10, 20), fun _ => 0, fun _ => 0,
          (100, 200)⟩ ![2, 0, 0]).uv = (some 10, some 20) := by
  have h2 : Matrix.mulVec
      (getR ⟨![0, 0, 0], ![0, 0, 0], (1, 1), (10, 20), fun _ => 0,
        fun _ => 0, (100, 200)⟩)
      (fun i => ![2, 0, 0] i - ![(0 : ℝ), 0, 0] i) 2 = 2 := by
    simp [getR, Matrix.mulVec, Matrix.dotProduct, Fin.sum_univ_three,
      Matrix.vecHead, Matrix.vecTail]
  have h :=
    (project_formula_no_distortion
      ⟨![0, 0, 0], ![0, 0, 0], (1, 1), (10, 20), fun _ => 0, fun _ => 0,
        (100, 200)⟩ ![2, 0, 0]).2.1
  rw [h2] at h
  have h0 : Matrix.mulVec
      (getR ⟨![0, 0, 0], ![0, 0, 0], (1, 1), (10, 20), fun _ => 0,
        fun _ => 0, (100, 200)⟩)
      (fun i => ![2, 0, 0] i - ![(0 : ℝ), 0, 0] i) 0 = 0 := by
    simp [getR, Matrix.mulVec, Matrix.dotProduct, Fin.sum_univ_three,
      Matrix.vecHead, Matrix.vecTail]
  have h1 : Matrix.mulVec
      (getR ⟨![0, 0, 0], ![0, 0, 0], (1, 1), (10, 20), fun _ => 0,
        fun _ => 0, (100, 200)⟩)
      (fun i => ![2, 0, 0] i - ![(0 : ℝ), 0, 0] i) 1 = 0 := by
    simp [getR, Matrix.mulVec, Matrix.dotProduct, Fin.sum_univ_three,
      Matrix.vecHead, Matrix.vecTail]
  rw [h0, h1] at h
  have := h (by norm_num)
  simpa using this

/-- C2: in `CamEnv.project`, a point whose rotated depth is ≤ 0 gets NaN
pixel coordinates (both components `none`); `inframe` implies positive
depth; and whenever the pixel coordinates exist, `inframe` holds iff
`depth > 0` and `1 ≤ u ≤ imageWidth` and `1 ≤ v ≤ imageHeight`
(inclusive, 1-based; width = `imsize.2`, height = `imsize.1`). -/
theorem project_nan_and_inframe (cam : Camera) (p : Fin 3 → ℝ) :
    ((projectPoint cam p).depth ≤ 0 →
      (projectPoint cam p).uv = (none, none)) ∧
    ((projectPoint cam p).inframe → 0 < (projectPoint cam p).depth) ∧
    (∀ u v, (projectPoint cam p).uv = (some u, some v) →
      ((projectPoint cam p).inframe ↔
        0 < (projectPoint cam p).depth ∧
        (1 ≤ u ∧ u ≤ cam.imsize.2) ∧ (1 ≤ v ∧ v ≤ cam.imsize.1))) := by
  by_cases h :
    Matrix.vecMul (fun i => p i - cam.camloc i) (getR cam).transpose 2 ≤ 0
  · refine ⟨fun _ => ?_, fun hin => ?_, fun u v huv => ?_⟩
    · simp [projectPoint, h]
    · exfalso
      have : 0 < Matrix.vecMul (fun i => p i - cam.camloc i)
          (getR cam).transpose 2 := by
        simpa [projectPoint] using hin.1
      exact absurd h (not_le.2 this)
    · exfalso
      have : (projectPoint cam p).uv = (none, none) := by
        simp [projectPoint, h]
      rw [this] at huv
      exact Option.noConfusion (Prod.mk.injEq _ _ _ _ ▸ huv).1
  · refine ⟨fun hle => ?_, fun _ => ?_, fun u v huv => ?_⟩
    · exfalso
      exact h (by simpa [projectPoint] using hle)
    · simpa [projectPoint] using not_le.1 h
    · have huv' : (projectPoint cam p).uv =
          (some (cam.focLen.1 *
            (Matrix.vecMul (fun i => p i - cam.camloc i)
                (getR cam).transpose 0 /
             Matrix.vecMul (fun i => p i - cam.camloc i)
                (getR cam).transpose 2) + cam.camCen.1),
           some (cam.focLen.2 *
            (Matrix.vecMul (fun i => p i - cam.camloc i)
                (getR cam).transpose 1 /
             Matrix.vecMul (fun i => p i - cam.camloc i)
                (getR cam).transpose 2) + cam.camCen.2)) := by
        simp [projectPoint, h]
      rw [huv'] at huv
      obtain ⟨hu, hv⟩ := Prod.mk.injEq _ _ _ _ ▸ huv
      have hu' := Option.some.inj hu
      have hv' := Option.some.inj hv
      subst hu'
      subst hv'
      simp only [projectPoint, optGe, optLe, if_neg h]
      tauto

/-- Witness for C2 at a concrete camera (all pose angles zero, focal
lengths 1, principal point (10, 20), image height 100 and width 200): the
world point (-2,0,0) has depth -2 ≤ 0 and NaN pixel coordinates, and the
world point (2,0,0) lands at (10, 20), inside the frame. -/
theorem project_nan_and_inframe_witness :
    (projectPoint
        ⟨![0, 0, 0], ![0, 0, 0], (1, 1), (10, 20), fun _ => 0, fun _ => 0,
          (100, 200)⟩ ![-2, 0, 0]).uv = (none, none) ∧
    (projectPoint
        ⟨![0, 0, 0], ![0, 0, 0], (1, 1), (10, 20), fun _ => 0, fun _ => 0,
          (100, 200)⟩ ![2, 0, 0]).inframe := by
  constructor
  · apply (project_nan_and_inframe _ _).1
    have : (projectPoint
        ⟨![0, 0, 0], ![0, 0, 0], (1, 1), (10, 20), fun _ => 0, fun _ => 0,
          (100, 200)⟩ ![-2, 0, 0]).depth = -2 := by
      simp [projectPoint, getR, Matrix.vecMul, Matrix.dotProduct,
        Matrix.transpose_apply, Fin.sum_univ_three, Matrix.vecHead,
        Matrix.vecTail]
    rw [this]
    norm_num
  · have huv : (projectPoint
        ⟨![0, 0, 0], ![0, 0, 0], (1, 1), (10, 20), fun _ => 0, fun _ => 0,
          (100, 200)⟩ ![2, 0, 0]).uv = (some 10, some 20) := by
      simp [projectPoint, getR, Matrix.vecMul, Matrix.dotProduct,
        Matrix.transpose_apply, Fin.sum_univ_three, Matrix.vecHead,
        Matrix.vecTail]
    have hd : (projectPoint
        ⟨![0, 0, 0], ![0, 0, 0], (1, 1), (10, 20), fun _ => 0, fun _ => 0,
          (100, 200)⟩ ![2, 0, 0]).depth = 2 := by
      simp [projectPoint, getR, Matrix.vecMul, Matrix.dotProduct,
        Matrix.transpose_apply, Fin.sum_univ_three, Matrix.vecHead,
        Matrix.vecTail]
    rw [(project_nan_and_inframe _ _).2.2 10 20 huv, hd]
    norm_num

/-- C9 counterexample: for a camera at (0,0,100) with yaw = 0,
pitch = −90° (i.e. `-(π/2)`, the convention of `getR`, where
`np.cos`/`np.sin` take radians) and roll = 0, projecting the world point
(0,0,0) does NOT return the principal point: the rotated depth is −100, so
both pixel coordinates are NaN.  Concrete intrinsics: focal (1000,1000),
principal point (500,400), image size 800×1200. -/
theorem project_pitch_neg90_not_principal_point :
    (projectPoint
        ⟨![0, 0, 100], ![0, -(Real.pi / 2), 0], (1000, 1000), (500, 400),
          fun _ => 0, fun _ => 0, (800, 1200)⟩ ![0, 0, 0]).uv =
      (none, none) ∧
    (projectPoint
        ⟨![0, 0, 100], ![0, -(Real.pi / 2), 0], (1000, 1000), (500, 400),
          fun _ => 0, fun _ => 0, (800, 1200)⟩ ![0, 0, 0]).uv ≠
      (some 500, some 400) ∧
    (projectPoint
        ⟨![0, 0, 100], ![0, -(Real.pi / 2), 0], (1000, 1000), (500, 400),
          fun _ => 0, fun _ => 0, (800, 1200)⟩ ![0, 0, 0]).depth = -100 := by
  have huv : (projectPoint
      ⟨![0, 0, 100], ![0, -(Real.pi / 2), 0], (1000, 1000), (500, 400),
        fun _ => 0, fun _ => 0, (800, 1200)⟩ ![0, 0, 0]).uv =
      (none, none) := by
    simp [projectPoint, getR, Matrix.vecMul, Matrix.dotProduct,
      Matrix.transpose_apply, Fin.sum_univ_three, Matrix.vecHead,
      Matrix.vecTail, Real.cos_pi_div_two, Real.sin_pi_div_two]
  refine ⟨huv, ?_, ?_⟩
  · rw [huv]
    intro hcontra
    exact Option.noConfusion (Prod.mk.injEq _ _ _ _ ▸ hcontra).1
  · simp [projectPoint, getR, Matrix.vecMul, Matrix.dotProduct,
      Matrix.transpose_apply, Fin.sum_univ_three, Matrix.vecHead,
      Matrix.vecTail, Real.cos_pi_div_two, Real.sin_pi_div_two]

/-- C9 amended: for a camera at (0,0,100) with yaw = 0, roll = 0 and
pitch = **+90°** (`π/2`, the convention under which `getR` points the
viewing axis straight down), projecting the world point (0,0,0) returns
exactly the pixel at the principal point (cx, cy), with depth 100; with
pitch = −90° the point is behind the camera and the pixel coordinates are
NaN (see the counterexample). -/
theorem project_pitch_pos90_principal_point (f1 f2 c1 c2 hh ww : ℝ)
    (rad : Fin 6 → ℝ) (tanc : Fin 2 → ℝ) :
    (projectPoint
        ⟨![0, 0, 100], ![0, Real.pi / 2, 0], (f1, f2), (c1, c2), rad, tanc,
          (hh, ww)⟩ ![0, 0, 0]).uv = (some c1, some c2) ∧
    (projectPoint
        ⟨![0, 0, 100], ![0, Real.pi / 2, 0], (f1, f2), (c1, c2), rad, tanc,
          (hh, ww)⟩ ![0, 0, 0]).depth = 100 := by
  constructor <;>
    simp [projectPoint, getR, Matrix.vecMul, Matrix.dotProduct,
      Matrix.transpose_apply, Fin.sum_univ_three, Matrix.vecHead,
      Matrix.vecTail, Real.cos_pi_div_two, Real.sin_pi_div_two]

/-! ## CamEnv.project on a whole array: input shape handling

`CamEnv.project` performs no validation of its input array (the comment
`###need to check xyz is an array of the correct size` on line 754 was
never implemented, and no `InvalidInputError` exists anywhere in the
codebase).  The first operation is `xyz = xyz - self._camloc`, numpy
broadcasting of an (n,k) array against the 3-vector `_camloc`: it
succeeds for k = 3 (element-wise) and for k = 1 (the single column is
broadcast against all three camera coordinates), and raises a numpy
`ValueError` for any other k. -/

/-- One row of the world-point array, converted to the `Fin 3 → ℝ` point
whose translation `p - camloc` reproduces numpy's broadcast of the row
against `_camloc`: a 3-column row is taken as is, a 1-column row is
broadcast to all three coordinates, and any other width raises the numpy
broadcast `ValueError`. -/
def rowToPoint (row : List ℝ) : Except PyError (Fin 3 → ℝ) :=
  match row with
  | [x, y, z] => .ok ![x, y, z]
  | [x] => .ok ![x, x, x]
  | _ => .error .valueError

/-- `CamEnv.project` on the full world-point array (CamEnv.py lines
732-818): the broadcast subtraction happens first (raising `ValueError`
on incompatible widths), then each translated point goes through the
per-point projection pipeline. -/
noncomputable def project (cam : Camera) (rows : List (List ℝ)) :
    Except PyError (List PixResult) :=
  (rows.mapM rowToPoint).map (List.map (projectPoint cam))

theorem rowToPoint_ok_or_valueError (row : List ℝ) :
    (∃ v, rowToPoint row = .ok v) ∨ rowToPoint row = .error .valueError := by
  match row with
  | [] => exact Or.inr rfl
  | [x] => exact Or.inl ⟨_, rfl⟩
  | [x, y] => exact Or.inr rfl
  | [x, y, z] => exact Or.inl ⟨_, rfl⟩
  | x :: y :: z :: w :: t => exact Or.inr rfl

theorem rowToPoint_badWidth (row : List ℝ) (h1 : row.length ≠ 1)
    (h3 : row.length ≠ 3) : rowToPoint row = .error .valueError := by
  match row with
  | [] => rfl
  | [x] => exact absurd rfl h1
  | [x, y] => rfl
  | [x, y, z] => exact absurd rfl h3
  | x :: y :: z :: w :: t => rfl

/-- C5 counterexample: the claim says `CamEnv.project` fails with
`InvalidInputError` whenever the world-point array does not have exactly
three columns; but a one-column array `[[5]]` is silently broadcast
against the camera location and the call succeeds, returning a result
(no exception of any kind, and `InvalidInputError` does not exist). -/
theorem project_one_column_succeeds :
    project
        ⟨![0, 0, 0], ![0, 0, 0], (1, 1), (10, 20), fun _ => 0, fun _ => 0,
          (100, 200)⟩ [[5]] =
      .ok [projectPoint
        ⟨![0, 0, 0], ![0, 0, 0], (1, 1), (10, 20), fun _ => 0, fun _ => 0,
          (100, 200)⟩ ![5, 5, 5]] := by
  rfl

/-- C5 amended: `CamEnv.project` performs no column-count validation and
never raises `InvalidInputError` (which does not exist in the codebase).
An array containing a row whose column count is neither 1 nor 3 makes the
initial broadcast subtraction `xyz - self._camloc` raise a numpy
`ValueError`; a 1-column array is silently broadcast against the camera
location and projection proceeds normally. -/
theorem project_no_input_validation (cam : Camera) (rows : List (List ℝ))
    (hbad : ∃ row ∈ rows, row.length ≠ 1 ∧ row.length ≠ 3) :
    project cam rows = .error .valueError := by
  obtain ⟨row, hmem, h1, h3⟩ := hbad
  have hrows : rows.mapM rowToPoint = .error .valueError := by
    induction rows with
    | nil => exact absurd hmem (List.not_mem_nil row)
    | cons r rest ih =>
      rcases List.mem_cons.1 hmem with hr | hrest
      · subst hr
        rw [List.mapM_cons, rowToPoint_badWidth row h1 h3]
        rfl
      · rcases rowToPoint_ok_or_valueError r with ⟨v, hv⟩ | herr
        · rw [List.mapM_cons, hv, ih hrest]
          rfl
        · rw [List.mapM_cons, herr]
          rfl
  rw [project, hrows]
  rfl

/-- Witness for C5's amended statement at a concrete camera and a
two-column world-point array: the call raises the broadcast
`ValueError`. -/
theorem project_no_input_validation_witness :
    project
        ⟨![0, 0, 0], ![0, 0, 0], (1, 1), (10, 20), fun _ => 0, fun _ => 0,
          (100, 200)⟩ [[1, 2]] = .error .valueError :=
  project_no_input_validation _ [[1, 2]]
    ⟨[1, 2], by simp, by simp, by simp⟩

/-! ## Velocity.py: feature tracking

`featureTrack` (Velocity.py lines 990-1056) calls the external OpenCV
tracker `cv2.calcOpticalFlowPyrLK` twice; its outputs `p1` (forward
track) and `p0r` (backward track) are taken as parameters here, and the
function embeds everything the source computes from them: the euclidean
backtracking residuals, the boolean mask `good = dist < back_thresh`,
the boolean-indexing filter of the four arrays, and the
`min_features` check returning `None`. -/

/-- An image point (numpy row of shape (1,2), flattened). -/
abbrev Pt := ℝ × ℝ

/-- The backtracking residual (Velocity.py lines 1035-1036):
`dist = (p0-p0r)*(p0-p0r); dist = sqrt(dist[:,0,0] + dist[:,0,1])`. -/
noncomputable def ptDist (a b : Pt) : ℝ :=
  Real.sqrt ((a.1 - b.1) * (a.1 - b.1) + (a.2 - b.2) * (a.2 - b.2))

open Classical

/-- numpy boolean-mask indexing `xs[good]`: keeps, in order, the entries
whose mask value holds. -/
noncomputable def maskFilter {α : Type} : List α → List Prop → List α
  | [], _ => []
  | _ :: _, [] => []
  | x :: xs, b :: bs =>
      if b then x :: maskFilter xs bs else maskFilter xs bs

/-- The `good` mask of `featureTrack` (Velocity.py line 1038):
`good = dist < back_thresh`, entrywise. -/
noncomputable def backMask (p0 p0r : List Pt) (back_thresh : ℝ) :
    List Prop :=
  List.zipWith (fun a b => ptDist a b < back_thresh) p0 p0r

/-- `featureTrack` (Velocity.py lines 990-1056) after the two external
optical-flow calls: computes the residuals, filters `p0`, `p1`, `p0r` and
the residual array by the mask `dist < back_thresh`, and returns `None`
when fewer than `min_features` points survive, else
`[p0, p1, p0r], error`. -/
noncomputable def featureTrack (p0 p1 p0r : List Pt) (back_thresh : ℝ)
    (min_features : ℕ) :
    Option ((List Pt × List Pt × List Pt) × List ℝ) :=
  let dist := List.zipWith ptDist p0 p0r
  let good := backMask p0 p0r back_thresh
  let p0g := maskFilter p0 good
  let p1g := maskFilter p1 good
  let p0rg := maskFilter p0r good
  let error := maskFilter dist good
  if p0g.length < min_features then none
  else some ((p0g, p1g, p0rg), error)

theorem maskFilter_length_congr {α β : Type} (xs : List α) (ys : List β)
    (m : List Prop) (h : xs.length = ys.length) :
    (maskFilter xs m).length = (maskFilter ys m).length := by
  induction xs generalizing ys m with
  | nil =>
    cases ys with
    | nil => cases m <;> rfl
    | cons y ys => simp at h
  | cons x xs ih =>
    cases ys with
    | nil => simp at h
    | cons y ys =>
      cases m with
      | nil => rfl
      | cons b bs =>
        by_cases hb : b
        · simp only [maskFilter, if_pos hb, List.length_cons]
          exact congrArg Nat.succ (ih ys bs (by simpa using h))
        · simp only [maskFilter, if_neg hb]
          exact ih ys bs (by simpa using h)

theorem backMask_getD (p0 p0r : List Pt) (bt : ℝ) (i : ℕ)
    (hi : i < p0.length) (hir : i < p0r.length) :
    (backMask p0 p0r bt).getD i True =
      (ptDist (p0.getD i (0, 0)) (p0r.getD i (0, 0)) < bt) := by
  induction p0 generalizing p0r i with
  | nil => simp at hi
  | cons a as ih =>
    cases p0r with
    | nil => simp at hir
    | cons b bs =>
      cases i with
      | zero => rfl
      | succ j =>
        have hj : j < as.length := by simpa using hi
        have hjr : j < bs.length := by simpa using hir
        simpa [backMask] using ih bs j hj hjr

/-- C3: whenever `featureTrack` returns a result, the three returned
point lists and the error list are the boolean-mask filters of `p0`,
`p1`, `p0r` and of the per-point residuals by the same mask
`residual < back_thresh` (so exactly the points with residual ≥
`back_thresh` are dropped, the survivors keep their original order, and
the mask holds at index i iff the euclidean distance between seed
`p0[i]` and back-tracked `p0r[i]` is below the threshold); all four
returned lists have the same length, index-aligned, and at least
`min_features` points survive. -/
theorem featureTrack_residual_filter (p0 p1 p0r : List Pt) (bt : ℝ)
    (mf : ℕ) (hlen1 : p1.length = p0.length)
    (hlenr : p0r.length = p0.length)
    (res : (List Pt × List Pt × List Pt) × List ℝ)
    (hres : featureTrack p0 p1 p0r bt mf = some res) :
    res.1.1 = maskFilter p0 (backMask p0 p0r bt) ∧
    res.1.2.1 = maskFilter p1 (backMask p0 p0r bt) ∧
    res.1.2.2 = maskFilter p0r (backMask p0 p0r bt) ∧
    res.2 = maskFilter (List.zipWith ptDist p0 p0r) (backMask p0 p0r bt) ∧
    res.1.2.1.length = res.1.1.length ∧
    res.1.2.2.length = res.1.1.length ∧
    res.2.length = res.1.1.length ∧
    mf ≤ res.1.1.length ∧
    (∀ i, i < p0.length →
      ((backMask p0 p0r bt).getD i True ↔
        ptDist (p0.getD i (0, 0)) (p0r.getD i (0, 0)) < bt)) := by
  simp only [featureTrack] at hres
  by_cases h : (maskFilter p0 (backMask p0 p0r bt)).length < mf
  · rw [if_pos h] at hres
    exact Option.noConfusion hres
  · rw [if_neg h] at hres
    have hres' := Option.some.inj hres
    subst hres'
    have hzip : (List.zipWith ptDist p0 p0r).length = p0.length := by
      rw [List.length_zipWith, hlenr, min_self]
    refine ⟨rfl, rfl, rfl, rfl, ?_, ?_, ?_, not_lt.1 h, fun i hi => ?_⟩
    · exact maskFilter_length_congr p1 p0 _ hlen1
    · exact maskFilter_length_congr p0r p0 _ hlenr
    · exact maskFilter_length_congr _ p0 _ hzip
    · exact iff_of_eq (backMask_getD p0 p0r bt i hi (hlenr ▸ hi))

/-- Witness for C3: a concrete two-point track with residuals 5 and 0
against threshold 2 returns exactly the second point (in order) in all
four lists, and the surviving seed list is the mask filter of the
input. -/
theorem featureTrack_residual_filter_witness :
    featureTrack [((6 : ℝ), (8 : ℝ)), (10, 10)] [(7, 9), (11, 11)]
        [(3, 4), (10, 10)] 2 1 =
      some (([(10, 10)], [(11, 11)], [(10, 10)]), [0]) ∧
    [((10 : ℝ), (10 : ℝ))] =
      maskFilter [(6, 8), (10, 10)]
        (backMask [(6, 8), (10, 10)] [(3, 4), (10, 10)] 2) := by
  have d1 : ptDist ((6 : ℝ), (8 : ℝ)) (3, 4) = 5 := by
    simp only [ptDist]
    rw [show ((6 : ℝ) - 3) * ((6 : ℝ) - 3) + ((8 : ℝ) - 4) * ((8 : ℝ) - 4)
        = 5 ^ 2 by norm_num]
    exact Real.sqrt_sq (by norm_num)
  have d2 : ptDist ((10 : ℝ), (10 : ℝ)) (10, 10) = 0 := by
    simp [ptDist]
  have hn : ¬((5 : ℝ) < 2) := by norm_num
  have hp : (0 : ℝ) < 2 := by norm_num
  have hres : featureTrack [((6 : ℝ), (8 : ℝ)), (10, 10)] [(7, 9), (11, 11)]
      [(3, 4), (10, 10)] 2 1 =
      some (([(10, 10)], [(11, 11)], [(10, 10)]), [0]) := by
    simp [featureTrack, backMask, maskFilter, d1, d2, hn, hp]
  exact ⟨hres,
    (featureTrack_residual_filter _ _ _ _ _ (by simp) (by simp) _ hres).1⟩

/-! ## Velocity.py: homography application

`apply_persp_homographyPts` (Velocity.py lines 939-987), ndarray branch:
maps each point by `x = (m00 x + m01 y + m02) * div`,
`y = (m10 x + m11 y + m12) * div` with
`div = 1 / (m20 x + m21 y + m22)`; with `inverse=True` the matrix is
first inverted (`cv2.invert`, modelled as the exact matrix inverse). -/

/-- One point through the perspective homography `h` (Velocity.py lines
962-968). -/
noncomputable def perspPoint (h : Matrix (Fin 3) (Fin 3) ℝ) (p : Pt) : Pt :=
  ((h 0 0 * p.1 + h 0 1 * p.2 + h 0 2) *
     (1 / (h 2 0 * p.1 + h 2 1 * p.2 + h 2 2)),
   (h 1 0 * p.1 + h 1 1 * p.2 + h 1 2) *
     (1 / (h 2 0 * p.1 + h 2 1 * p.2 + h 2 2)))

/-- `apply_persp_homographyPts` (Velocity.py lines 939-970, ndarray
branch). -/
noncomputable def apply_persp_homographyPts (pts : List Pt)
    (homog : Matrix (Fin 3) (Fin 3) ℝ) (inverse : Bool) : List Pt :=
  let h := if inverse then homog⁻¹ else homog
  pts.map (perspPoint h)

theorem perspPoint_roundtrip (M : Matrix (Fin 3) (Fin 3) ℝ)
    (hdet : M.det ≠ 0) (p : Pt)
    (hw : M 2 0 * p.1 + M 2 1 * p.2 + M 2 2 ≠ 0) :
    perspPoint M⁻¹ (perspPoint M p) = p := by
  obtain ⟨x, y⟩ := p
  have hA : M⁻¹ * M = 1 :=
    Matrix.nonsing_inv_mul M (isUnit_iff_ne_zero.2 hdet)
  have hent : ∀ i j, M⁻¹ i 0 * M 0 j + M⁻¹ i 1 * M 1 j + M⁻¹ i 2 * M 2 j =
      (1 : Matrix (Fin 3) (Fin 3) ℝ) i j := by
    intro i j
    have := congrFun (congrFun hA i) j
    rw [Matrix.mul_apply, Fin.sum_univ_three] at this
    exact this
  have h00 := hent 0 0
  have h01 := hent 0 1
  have h02 := hent 0 2
  have h10 := hent 1 0
  have h11 := hent 1 1
  have h12 := hent 1 2
  have h20 := hent 2 0
  have h21 := hent 2 1
  have h22 := hent 2 2
  simp [Matrix.one_apply] at h00 h01 h02 h10 h11 h12 h20 h21 h22
  set a := M 0 0 * x + M 0 1 * y + M 0 2 with ha
  set b := M 1 0 * x + M 1 1 * y + M 1 2 with hb
  set w := M 2 0 * x + M 2 1 * y + M 2 2 with hwdef
  have hS0 : M⁻¹ 0 0 * a + M⁻¹ 0 1 * b + M⁻¹ 0 2 * w = x := by
    rw [ha, hb, hwdef]
    linear_combination x * h00 + y * h01 + h02
  have hS1 : M⁻¹ 1 0 * a + M⁻¹ 1 1 * b + M⁻¹ 1 2 * w = y := by
    rw [ha, hb, hwdef]
    linear_combination x * h10 + y * h11 + h12
  have hS2 : M⁻¹ 2 0 * a + M⁻¹ 2 1 * b + M⁻¹ 2 2 * w = 1 := by
    rw [ha, hb, hwdef]
    linear_combination x * h20 + y * h21 + h22
  have hwne : w ≠ 0 := hw
  have hcancel : w * (1 / w) = 1 := mul_one_div_cancel hwne
  have hw' : M⁻¹ 2 0 * (a * (1 / w)) + M⁻¹ 2 1 * (b * (1 / w)) + M⁻¹ 2 2
      = 1 / w := by
    have hstep : M⁻¹ 2 0 * (a * (1 / w)) + M⁻¹ 2 1 * (b * (1 / w)) +
        M⁻¹ 2 2 = (M⁻¹ 2 0 * a + M⁻¹ 2 1 * b + M⁻¹ 2 2 * w) * (1 / w) := by
      linear_combination (-(M⁻¹ 2 2)) * hcancel
    rw [hstep, hS2, one_mul]
  simp only [perspPoint]
  rw [Prod.mk.injEq]
  constructor
  · rw [hw', one_div_one_div]
    linear_combination hS0 + (M⁻¹ 0 0 * a + M⁻¹ 0 1 * b) * hcancel
  · rw [hw', one_div_one_div]
    linear_combination hS1 + (M⁻¹ 1 0 * a + M⁻¹ 1 1 * b) * hcancel

/-- C6 counterexample: for the non-degenerate matrix
`[[1,0,0],[0,1,0],[1,0,1]]` (determinant 1) and the point (-1, 0), the
homogeneous denominator `m20·x + m21·y + m22` is zero, so the forward
application collapses the point (float division by zero in the source)
and applying the inverse afterwards returns (0, 0), not the original
point: the composition is not the identity for every point. -/
theorem apply_persp_homographyPts_zero_denominator :
    (!![1, 0, 0; 0, 1, 0; 1, 0, 1] : Matrix (Fin 3) (Fin 3) ℝ).det ≠ 0 ∧
    apply_persp_homographyPts
        (apply_persp_homographyPts [((-1 : ℝ), (0 : ℝ))]
          !![1, 0, 0; 0, 1, 0; 1, 0, 1] false)
        !![1, 0, 0; 0, 1, 0; 1, 0, 1] true = [((0 : ℝ), (0 : ℝ))] ∧
    [((0 : ℝ), (0 : ℝ))] ≠ [((-1 : ℝ), (0 : ℝ))] := by
  have hInv : (!![1, 0, 0; 0, 1, 0; 1, 0, 1] :
      Matrix (Fin 3) (Fin 3) ℝ)⁻¹ = !![1, 0, 0; 0, 1, 0; -1, 0, 1] := by
    apply Matrix.inv_eq_right_inv
    ext i j
    fin_cases i <;> fin_cases j <;>
      simp [Matrix.mul_apply, Fin.sum_univ_three, Matrix.one_apply,
        Matrix.vecHead, Matrix.vecTail]
  refine ⟨?_, ?_, ?_⟩
  · norm_num [Matrix.det_fin_three]
  · simp [apply_persp_homographyPts, perspPoint, hInv]
  · simp [Prod.ext_iff]

/-- C6 amended: applying `apply_persp_homographyPts` with `inverse=True`
to the result of applying it with `inverse=False` returns the original
points for every non-degenerate 3×3 matrix, **provided** every point has
a non-zero homogeneous denominator `m20·x + m21·y + m22` (points on the
line mapped to infinity are collapsed by the division and are not
recovered — see the counterexample). -/
theorem apply_persp_homographyPts_inverse_roundtrip
    (M : Matrix (Fin 3) (Fin 3) ℝ) (pts : List Pt) (hdet : M.det ≠ 0)
    (hw : ∀ p ∈ pts, M 2 0 * p.1 + M 2 1 * p.2 + M 2 2 ≠ 0) :
    apply_persp_homographyPts (apply_persp_homographyPts pts M false) M true
      = pts := by
  simp only [apply_persp_homographyPts, if_true, if_false, Bool.false_eq_true,
    List.map_map]
  induction pts with
  | nil => rfl
  | cons p rest ih =>
    rw [List.map_cons]
    have hp := hw p (List.mem_cons_self p rest)
    rw [Function.comp_apply, perspPoint_roundtrip M hdet p hp]
    have hrest := ih (fun q hq => hw q (List.mem_cons_of_mem p hq))
    rw [hrest]

/-- Witness for C6's amended statement: a concrete non-degenerate matrix
and point with non-zero denominator round-trips exactly. -/
theorem apply_persp_homographyPts_inverse_roundtrip_witness :
    apply_persp_homographyPts
        (apply_persp_homographyPts [((3 : ℝ), (4 : ℝ))]
          !![1, 0, 0; 0, 1, 0; 1, 0, 1] false)
        !![1, 0, 0; 0, 1, 0; 1, 0, 1] true = [((3 : ℝ), (4 : ℝ))] := by
  apply apply_persp_homographyPts_inverse_roundtrip
  · norm_num [Matrix.det_fin_three]
  · intro p hp
    rw [List.mem_singleton] at hp
    subst hp
    norm_num

/-! ## Velocity.py: calcSparseVelocity (lines 405-592)

Embedded on the `calib=None` (no undistortion, the default) and
`invprojvars=None` (no georectification) paths; the tracker outputs `p1`,
`p0r` of the external `cv2.calcOpticalFlowPyrLK` are parameters.  The
homography argument carries `hmatrix` and the summary-statistics row
`hpts[0] = [xmean, ymean, xsd, ysd]` of the homography residuals. -/

/-- `displacement_tolerance_rel = 2.0` (Velocity.py line 466). -/
def displacement_tolerance_rel : ℝ := 2

/-- The `good` mask of the homography filter (Velocity.py lines 519-530):
`disp_dist = sqrt(dispx² + dispy²)` between homography-corrected
destination and source points, kept when
`disp_dist > sderr * displacement_tolerance_rel`. -/
noncomputable def homogGoodMask (dst_pts_homog src_pts_corr : List Pt)
    (sderr : ℝ) : List Prop :=
  List.zipWith (fun dh s =>
    Real.sqrt ((dh.1 - s.1) * (dh.1 - s.1) + (dh.2 - s.2) * (dh.2 - s.2)) >
      sderr * displacement_tolerance_rel) dst_pts_homog src_pts_corr

/-- Per-pair output of `calcSparseVelocity` (the `uv` half of the return
value on lines 586-592, with `invprojvars=None` so the xyz half is all
`None`).  `back` is the filtered back-tracked point array
(`back_pts_corr`), kept in a local by the source for the skipped
georectification stage; it is surfaced here so that the filtering of all
five per-point arrays can be stated. -/
structure VelOut where
  pxvel : List ℝ
  src : List Pt
  dst : List Pt
  dsthomog : Option (List Pt)
  back : List Pt
  errs : List ℝ

/-- `calcSparseVelocity` (Velocity.py lines 405-592) on the `calib=None`,
`invprojvars=None` paths.  The line
`points, ptserrors = featureTrack(...)` unpacks the function result into
a 2-tuple; when `featureTrack` returns its insufficient-features sentinel
`None`, that unpacking raises `TypeError` before the dead guard
`if points==None: return None` (lines 477-479) can run. -/
noncomputable def calcSparseVelocity (p0 p1 p0r : List Pt)
    (back_thresh : ℝ) (min_features : ℕ)
    (homog : Option (Matrix (Fin 3) (Fin 3) ℝ × (ℝ × ℝ × ℝ × ℝ))) :
    Except PyError VelOut :=
  match featureTrack p0 p1 p0r back_thresh min_features with
  | none => .error .typeError
  | some (points, ptserrors) =>
    let src_pts_corr := points.1
    let dst_pts_corr := points.2.1
    let back_pts_corr := points.2.2
    match homog with
    | some (hmatrix, hpts0) =>
      let dst_pts_homog := apply_persp_homographyPts dst_pts_corr hmatrix
        true
      let xsd := hpts0.2.2.1
      let ysd := hpts0.2.2.2
      let sderr := Real.sqrt (xsd * xsd + ysd * ysd)
      let good := homogGoodMask dst_pts_homog src_pts_corr sderr
      let src_g := maskFilter src_pts_corr good
      let dst_g := maskFilter dst_pts_corr good
      let dsth_g := maskFilter dst_pts_homog good
      let back_g := maskFilter back_pts_corr good
      let errs_g := maskFilter ptserrors good
      let pxvel := List.zipWith (fun c d =>
        Real.sqrt ((d.1 - c.1) * (d.1 - c.1) + (d.2 - c.2) * (d.2 - c.2)))
        src_g dsth_g
      .ok ⟨pxvel, src_g, dst_g, some dsth_g, back_g, errs_g⟩
    | none =>
      let pxvel := List.zipWith (fun c d =>
        Real.sqrt ((d.1 - c.1) * (d.1 - c.1) + (d.2 - c.2) * (d.2 - c.2)))
        src_pts_corr dst_pts_corr
      .ok ⟨pxvel, src_pts_corr, dst_pts_corr, none, back_pts_corr,
        ptserrors⟩

/-- `getD` of a `zipWith`-built Prop mask. -/
theorem zipWith_prop_getD {α β : Type} (f : α → β → Prop) (xs : List α)
    (ys : List β) (dx : α) (dy : β) (i : ℕ) (hx : i < xs.length)
    (hy : i < ys.length) :
    (List.zipWith f xs ys).getD i True = f (xs.getD i dx) (ys.getD i dy) := by
  induction xs generalizing ys i with
  | nil => simp at hx
  | cons x xs ih =>
    cases ys with
    | nil => simp at hy
    | cons y ys =>
      cases i with
      | zero => rfl
      | succ j =>
        have hj : j < xs.length := by simpa using hx
        have hjy : j < ys.length := by simpa using hy
        simpa using ih ys j hj hjy

/-- C4: when fewer than `min_features` points survive tracking,
`featureTrack` returns its insufficient-features sentinel `None` (never a
partially-populated result) — but `calcSparseVelocity` then raises
`TypeError` at the unpacking `points, ptserrors = featureTrack(...)`
instead of returning `None` and letting the pipeline continue: the
`if points==None: return None` guard on Velocity.py lines 477-479 is
unreachable.  Evaluated here at a concrete one-point input whose
backtracking residual 5 exceeds the threshold 2, with
`min_features = 1`. -/
theorem calcSparseVelocity_typeError_on_insufficient :
    featureTrack [((6 : ℝ), (8 : ℝ))] [(7, 9)] [(3, 4)] 2 1 = none ∧
    calcSparseVelocity [((6 : ℝ), (8 : ℝ))] [(7, 9)] [(3, 4)] 2 1 none =
      .error .typeError := by
  have d1 : ptDist ((6 : ℝ), (8 : ℝ)) (3, 4) = 5 := by
    simp only [ptDist]
    rw [show ((6 : ℝ) - 3) * ((6 : ℝ) - 3) + ((8 : ℝ) - 4) * ((8 : ℝ) - 4)
        = 5 ^ 2 by norm_num]
    exact Real.sqrt_sq (by norm_num)
  have hn : ¬((5 : ℝ) < 2) := by norm_num
  have htrack : featureTrack [((6 : ℝ), (8 : ℝ))] [(7, 9)] [(3, 4)] 2 1 =
      none := by
    simp [featureTrack, backMask, maskFilter, d1, hn]
  refine ⟨htrack, ?_⟩
  rw [calcSparseVelocity, htrack]

/-- C8: in `calcSparseVelocity` with a homography model supplied, the
inverse homography is applied to the destination points, and all five
per-point arrays (source, destination, homography-corrected destination,
back-tracked, residuals) are filtered by the one mask that keeps index i
iff the euclidean distance between the homography-corrected destination
point and the source point strictly exceeds
`sqrt(xsd² + ysd²) * 2.0`. -/
theorem calcSparseVelocity_homog_filter (p0 p1 p0r : List Pt)
    (bt : ℝ) (mf : ℕ) (hmatrix : Matrix (Fin 3) (Fin 3) ℝ)
    (xmean ymean xsd ysd : ℝ)
    (points : List Pt × List Pt × List Pt) (ptserrors : List ℝ)
    (htrack : featureTrack p0 p1 p0r bt mf = some (points, ptserrors))
    (out : VelOut)
    (hout : calcSparseVelocity p0 p1 p0r bt mf
        (some (hmatrix, (xmean, ymean, xsd, ysd))) = .ok out) :
    out.src = maskFilter points.1
        (homogGoodMask (apply_persp_homographyPts points.2.1 hmatrix true)
          points.1 (Real.sqrt (xsd * xsd + ysd * ysd))) ∧
    out.dst = maskFilter points.2.1
        (homogGoodMask (apply_persp_homographyPts points.2.1 hmatrix true)
          points.1 (Real.sqrt (xsd * xsd + ysd * ysd))) ∧
    out.dsthomog = some (maskFilter
        (apply_persp_homographyPts points.2.1 hmatrix true)
        (homogGoodMask (apply_persp_homographyPts points.2.1 hmatrix true)
          points.1 (Real.sqrt (xsd * xsd + ysd * ysd)))) ∧
    out.back = maskFilter points.2.2
        (homogGoodMask (apply_persp_homographyPts points.2.1 hmatrix true)
          points.1 (Real.sqrt (xsd * xsd + ysd * ysd))) ∧
    out.errs = maskFilter ptserrors
        (homogGoodMask (apply_persp_homographyPts points.2.1 hmatrix true)
          points.1 (Real.sqrt (xsd * xsd + ysd * ysd))) ∧
    (∀ i,
      i < (apply_persp_homographyPts points.2.1 hmatrix true).length →
      i < points.1.length →
      ((homogGoodMask (apply_persp_homographyPts points.2.1 hmatrix true)
          points.1 (Real.sqrt (xsd * xsd + ysd * ysd))).getD i True ↔
        Real.sqrt
          ((((apply_persp_homographyPts points.2.1 hmatrix true).getD i
                (0, 0)).1 - (points.1.getD i (0, 0)).1) *
            (((apply_persp_homographyPts points.2.1 hmatrix true).getD i
                (0, 0)).1 - (points.1.getD i (0, 0)).1) +
           (((apply_persp_homographyPts points.2.1 hmatrix true).getD i
                (0, 0)).2 - (points.1.getD i (0, 0)).2) *
            (((apply_persp_homographyPts points.2.1 hmatrix true).getD i
                (0, 0)).2 - (points.1.getD i (0, 0)).2)) >
          Real.sqrt (xsd * xsd + ysd * ysd) * 2)) := by
  simp only [calcSparseVelocity] at hout
  rw [htrack] at hout
  simp only at hout
  have hout' := Except.ok.inj hout
  subst hout'
  refine ⟨rfl, rfl, rfl, rfl, rfl, fun i hi hi2 => ?_⟩
  have := zipWith_prop_getD
    (fun dh s : Pt =>
      Real.sqrt ((dh.1 - s.1) * (dh.1 - s.1) + (dh.2 - s.2) * (dh.2 - s.2)) >
        Real.sqrt (xsd * xsd + ysd * ysd) * displacement_tolerance_rel)
    (apply_persp_homographyPts points.2.1 hmatrix true) points.1
    (0, 0) (0, 0) i hi hi2
  rw [homogGoodMask, this, displacement_tolerance_rel]

/-- Witness for C8: one point tracked with zero displacement under the
identity homography and zero residual standard deviations: its corrected
displacement 0 does not strictly exceed the threshold 0, so the point is
filtered out of all five arrays. -/
theorem calcSparseVelocity_homog_filter_witness :
    calcSparseVelocity [((6 : ℝ), (8 : ℝ))] [(6, 8)] [(6, 8)] 1 1
        (some (1, (0, 0, 0, 0))) = .ok ⟨[], [], [], some [], [], []⟩ ∧
    ([] : List Pt) = maskFilter [((6 : ℝ), (8 : ℝ))]
        (homogGoodMask
          (apply_persp_homographyPts [((6 : ℝ), (8 : ℝ))] 1 true)
          [((6 : ℝ), (8 : ℝ))] (Real.sqrt (0 * 0 + 0 * 0))) := by
  have d0 : ptDist ((6 : ℝ), (8 : ℝ)) (6, 8) = 0 := by
    simp [ptDist]
  have hp : (0 : ℝ) < 1 := by norm_num
  have htrack : featureTrack [((6 : ℝ), (8 : ℝ))] [(6, 8)] [(6, 8)] 1 1 =
      some (([(6, 8)], [(6, 8)], [(6, 8)]), [0]) := by
    simp [featureTrack, backMask, maskFilter, d0, hp]
  have hpersp : apply_persp_homographyPts [((6 : ℝ), (8 : ℝ))] 1 true =
      [(6, 8)] := by
    simp [apply_persp_homographyPts, perspPoint, inv_one, Matrix.one_apply]
  have hpp : perspPoint (1 : Matrix (Fin 3) (Fin 3) ℝ) ((6 : ℝ), (8 : ℝ)) =
      (6, 8) := by
    simp [perspPoint, Matrix.one_apply]
  have hout : calcSparseVelocity [((6 : ℝ), (8 : ℝ))] [(6, 8)] [(6, 8)] 1 1
      (some (1, (0, 0, 0, 0))) = .ok ⟨[], [], [], some [], [], []⟩ := by
    simp only [calcSparseVelocity]
    rw [htrack]
    simp [hpersp, hpp, apply_persp_homographyPts, homogGoodMask, maskFilter,
      displacement_tolerance_rel]
  refine ⟨hout, ?_⟩
  have h := (calcSparseVelocity_homog_filter _ _ _ _ _ _ _ _ _ _ _ _
    htrack _ hout).1
  simpa [hpersp] using h

end PyTrx
